import Mathlib

/-!
Verification development for the YouTube transcript summariser.

The repository's own code (`notebook.ipynb`) contains `extract_video_id` and
`get_youtube_transcript`, which are embedded below directly from the source.
The semantic segmentation (`SemanticChunker.split_text`) and the refine
summarization chain (`load_summarize_chain` / `chain.invoke`) are library code
that the notebook only invokes; those components are modelled from the
specification's component design (sections 4.1, 4.2, 6 and 7).

Strings are embedded as `List Char`; a Python string literal `"s"` appears as
`"s".data`.
-/

/-! ## Character helpers -/

/-- Whitespace characters, as used for trimming and whitespace normalization. -/
def isWsChar (c : Char) : Bool :=
  c = ' ' || c = '\t' || c = '\n' || c = '\r'

/-- Sentence-ending punctuation used by the punctuation-aware span splitter. -/
def isSentEnd (c : Char) : Bool :=
  c = '.' || c = '?' || c = '!'

/-- Drop every whitespace character (the "ignoring whitespace normalization"
view of a string). -/
def removeWs (l : List Char) : List Char :=
  l.filter fun c => !isWsChar c

/-- Trim leading and trailing whitespace. -/
def trim (l : List Char) : List Char :=
  ((l.dropWhile isWsChar).reverse.dropWhile isWsChar).reverse

/-! ## Semantic Segmenter (spec section 4.1) -/

/-- Modelled from the spec: step 1 of the Semantic Segmenter, whose
implementation (`SemanticChunker.split_text`) is library code not present in
the repository. Cuts the transcript into raw sentences after each
sentence-ending punctuation character; the cut is an exact partition of the
character sequence. -/
def rawSentences : List Char → List (List Char)
  | [] => []
  | c :: rest =>
    if isSentEnd c then [c] :: rawSentences rest
    else
      match rawSentences rest with
      | [] => [[c]]
      | s :: ss => (c :: s) :: ss

/-- Modelled from the spec: the Spans produced by step 1 of the Semantic
Segmenter — raw sentences with adjacent whitespace trimmed, empty spans
dropped, positional order preserved. -/
def splitSpans (t : List Char) : List (List Char) :=
  ((rawSentences t).map trim).filter fun s => decide (s ≠ [])

/-- Modelled from the spec: a dissimilarity score between two embedding
vectors (the spec leaves the exact formula open, "e.g., one minus cosine
similarity"); modelled as squared Euclidean distance between integer-valued
numeric vectors (floating point is not modelled). -/
def sqDist (u v : List ℤ) : ℤ :=
  ((u.zip v).map fun p => (p.1 - p.2) * (p.1 - p.2)).sum

/-- Modelled from the spec: step 3 of the Semantic Segmenter — dissimilarity
scores between each pair of adjacent spans' embedding vectors. -/
def dissimilarities : List (List ℤ) → List ℤ
  | v1 :: v2 :: rest => sqDist v1 v2 :: dissimilarities (v2 :: rest)
  | _ => []

/-- Modelled from the spec: step 4 of the Semantic Segmenter — a dynamic
threshold taken as the percentile-`p` order statistic of the distribution of
dissimilarity scores (the percentile choice is a tunable heuristic per the
spec's open question). -/
def percentileThreshold (p : ℚ) (scores : List ℤ) : ℤ :=
  let sorted := scores.insertionSort fun a b => a ≤ b
  sorted.getD ((p.num * ((sorted.length : ℤ) - 1)) / (p.den : ℤ)).toNat 0

/-- Modelled from the spec: step 5's boundary decision — a chunk boundary is
inserted after adjacent pair `i` exactly when its dissimilarity exceeds the
dynamic threshold. -/
def boundaryOf (vecs : List (List ℤ)) (p : ℚ) : Nat → Bool :=
  fun i =>
    match (dissimilarities vecs)[i]? with
    | some d => decide (percentileThreshold p (dissimilarities vecs) < d)
    | none => false

/-- Modelled from the spec: step 5's merge — all spans between two boundaries
merge into one chunk by concatenation in order. `i` is the index of the
boundary slot between the accumulated chunk and the next span. -/
def mergeAux (b : Nat → Bool) : Nat → List Char → List (List Char) → List (List Char)
  | _, acc, [] => [acc]
  | i, acc, s :: rest =>
    if b i then acc :: mergeAux b (i + 1) s rest
    else mergeAux b (i + 1) (acc ++ s) rest

/-- Modelled from the spec: group the ordered spans into chunks according to
the boundary decision. -/
def mergeSpans (b : Nat → Bool) : List (List Char) → List (List Char)
  | [] => []
  | s :: rest => mergeAux b 0 s rest

/-- Modelled from the spec: the Semantic Segmenter
(`SemanticChunker.split_text`, library code not present in the repository):
split the transcript into spans, embed every span via the Embedding Provider
(`emb`), decide boundaries from dissimilarities against the percentile-`p`
threshold, and merge spans into chunks. Returns `none` on an Embedding
Provider failure (an error signal or a malformed response whose length does
not match the spans). -/
def split_text {εe : Type} (emb : List (List Char) → Except εe (List (List ℤ)))
    (p : ℚ) (t : List Char) : Option (List (List Char)) :=
  match emb (splitSpans t) with
  | .error _ => none
  | .ok vecs =>
    if vecs.length = (splitSpans t).length then
      some (mergeSpans (boundaryOf vecs p) (splitSpans t))
    else none

/-! ## Refine Orchestrator (spec section 4.2) -/

/-- Modelled from the spec: the prompts rendered by the Refine Orchestrator —
the initial (question) template consumes one placeholder (chunk text), the
refine template consumes two (prior running summary and new chunk text). -/
inductive Prompt where
  | initial (chunk : List Char)
  | refine (existingAnswer : List Char) (chunk : List Char)
deriving DecidableEq

/-- The chunk text a prompt folds in. -/
def chunkOf : Prompt → List Char
  | .initial c => c
  | .refine _ c => c

/-- Whether a prompt is an initial-template prompt. -/
def isInitialP : Prompt → Bool
  | .initial _ => true
  | .refine _ _ => false

/-- Whether a prompt is a refine-template prompt. -/
def isRefineP : Prompt → Bool
  | .initial _ => false
  | .refine _ _ => true

/-- Modelled from the spec: errors of the Refine Orchestrator — an empty chunk
sequence is an error, and a failed Language Model Provider call aborts the run
with a `SummarizationFailure` carrying the 1-based index of the failing chunk
and the last-good running summary accumulated so far. -/
inductive RunError (ε : Type) where
  | noChunks
  | summarizationFailure (k : Nat) (lastGood : List Char) (e : ε)
deriving DecidableEq

/-- Modelled from the spec: the refine loop of the Refine Orchestrator
(`load_summarize_chain` with `chain_type="refine"`, library code not present
in the repository). `acc` is the running summary, `i` the 0-based index of the
next chunk to fold in; returns the run result together with the ordered list
of prompts sent to the Language Model Provider. -/
def refineLoop {ε : Type} (llm : Nat → Prompt → Except ε (List Char))
    (acc : List Char) (i : Nat) :
    List (List Char) → Except (RunError ε) (List Char) × List Prompt
  | [] => (.ok acc, [])
  | c :: rest =>
    match llm i (.refine acc c) with
    | .error e => (.error (.summarizationFailure (i + 1) acc e), [.refine acc c])
    | .ok s =>
      let rt := refineLoop llm s (i + 1) rest
      (rt.1, .refine acc c :: rt.2)

/-- Modelled from the spec: the Refine Orchestrator (`chain.invoke`, library
code not present in the repository). Runs the initial template on the first
chunk, then folds each subsequent chunk into the running summary via the
refine template; returns the final summary and the ordered prompt trace. -/
def runRefine {ε : Type} (llm : Nat → Prompt → Except ε (List Char)) :
    List (List Char) → Except (RunError ε) (List Char) × List Prompt
  | [] => (.error .noChunks, [])
  | c :: rest =>
    match llm 0 (.initial c) with
    | .error e => (.error (.summarizationFailure 1 [] e), [.initial c])
    | .ok s =>
      let rt := refineLoop llm s 1 rest
      (rt.1, .initial c :: rt.2)

/-- Modelled from the spec: the design note's explicit left fold over the
chunk sequence — the accumulator starts as the response to the initial
template on the first chunk and is wholly replaced at each step by the
response to the refine template on (prior accumulator, next chunk); `g` gives
the provider's response at each call index. -/
def specFold (g : Nat → Prompt → List Char) (c0 : List Char)
    (rest : List (List Char)) : List Char :=
  (List.enumFrom 1 rest).foldl (fun acc ic => g ic.1 (.refine acc ic.2))
    (g 0 (.initial c0))

/-- Modelled from the spec: the Running Summary value after the first `m`
chunks have been folded in (the empty string for `m = 0`). -/
def runningSummaryAfter (g : Nat → Prompt → List Char) (c0 : List Char)
    (rest : List (List Char)) : Nat → List Char
  | 0 => []
  | m + 1 => specFold g c0 (rest.take m)

/-! ## Pipeline entry point (spec sections 6 and 7) -/

/-- Modelled from the spec: the error taxonomy of the pipeline entry point. -/
inductive PipeErr (ε : Type) where
  | invalidInput
  | embeddingFailure
  | summarization (r : RunError ε)

/-- Modelled from the spec: the observable outcome of one pipeline run — the
result together with the batched Embedding Provider calls and the Language
Model Provider prompt trace that the run issued. -/
structure PipeOut (ε : Type) where
  result : Except (PipeErr ε) (List Char)
  embedCalls : List (List (List Char))
  llmCalls : List Prompt

/-- Modelled from the spec: the pipeline entry point
`summarize(transcript, config)` (implemented in the excluded application layer,
not present in the repository): reject empty/whitespace-only transcripts
before any provider call, then segment (one batched embedding call), then run
the refine loop. -/
def summarize {εe ε : Type} (emb : List (List Char) → Except εe (List (List ℤ)))
    (llm : Nat → Prompt → Except ε (List Char)) (p : ℚ) (t : List Char) :
    PipeOut ε :=
  if (t.all isWsChar) = true then ⟨.error .invalidInput, [], []⟩
  else
    match split_text emb p t with
    | none => ⟨.error .embeddingFailure, [splitSpans t], []⟩
    | some chunks =>
      let rt := runRefine llm chunks
      ⟨rt.1.mapError .summarization, [splitSpans t], rt.2⟩

/-! ## URL parsing and transcript fetch (from `notebook.ipynb`) -/

/-- The 11 video-id characters `[0-9A-Za-z_-]`. -/
def isIdChar (c : Char) : Bool :=
  c.isAlpha || c.isDigit || c = '_' || c = '-'

/-- Whether the next 11 characters exist and are all id characters. -/
def elevenIdAt (s : List Char) : Bool :=
  decide ((s.take 11).length = 11) && (s.take 11).all isIdChar

/-- The regex group `([0-9A-Za-z_-]{11})`: capture the next 11 id characters,
if present. -/
def idCapture (s : List Char) : Option (List Char) :=
  if elevenIdAt s then some (s.take 11) else none

/-- One anchored attempt of the first pattern
`(?:v=|\/)([0-9A-Za-z_-]{11}).*` at the start of `s`: try the alternative
`v=`, then `/`, each followed by the 11-character capture (the trailing `.*`
always matches). -/
def matchP1At (s : List Char) : Option (List Char) :=
  if s.take 2 = ['v', '='] then idCapture (s.drop 2)
  else if s.take 1 = ['/'] then idCapture (s.drop 1)
  else none

/-- One anchored attempt of the second pattern
`(?:youtu\.be\/)([0-9A-Za-z_-]{11})` at the start of `s`. -/
def matchP2At (s : List Char) : Option (List Char) :=
  if s.take 9 = ['y', 'o', 'u', 't', 'u', '.', 'b', 'e', '/'] then
    idCapture (s.drop 9)
  else none

/-- `re.search`: try the anchored match at each position left to right and
return the first capture. -/
def searchCapture (matchAt : List Char → Option (List Char)) :
    List Char → Option (List Char)
  | [] => none
  | c :: rest =>
    match matchAt (c :: rest) with
    | some g => some g
    | none => searchCapture matchAt rest

/-- `extract_video_id` from the notebook: try the two regex patterns in order
and return the first capture group found, else `None`. -/
def extract_video_id (url : List Char) : Option (List Char) :=
  match searchCapture matchP1At url with
  | some g => some g
  | none => searchCapture matchP2At url

/-- `get_youtube_transcript` from the notebook: extract the video id (an
invalid URL raises `ValueError("Invalid YouTube URL")`), fetch the transcript
entries through the API (`api`, which may raise), join the entry texts with
single spaces; any exception is caught and rendered as
`"Error: " + str(e)`. -/
def get_youtube_transcript (api : List Char → Except (List Char) (List (List Char)))
    (url : List Char) : List Char :=
  match extract_video_id url with
  | none => "Error: Invalid YouTube URL".data
  | some vid =>
    match api vid with
    | .error e => "Error: ".data ++ e
    | .ok entries => List.intercalate [' '] entries

/-! ## Lemmas about whitespace and span splitting -/

lemma removeWs_append (a b : List Char) :
    removeWs (a ++ b) = removeWs a ++ removeWs b :=
  List.filter_append a b

lemma removeWs_dropWhile (l : List Char) :
    removeWs (l.dropWhile isWsChar) = removeWs l := by
  induction l with
  | nil => rfl
  | cons c rest ih =>
    by_cases h : isWsChar c = true
    · simp [List.dropWhile, h, removeWs, List.filter_cons] at *
      exact ih
    · simp [List.dropWhile, h]

lemma removeWs_reverse (l : List Char) :
    removeWs l.reverse = (removeWs l).reverse :=
  List.filter_reverse _ l

lemma removeWs_trim (l : List Char) : removeWs (trim l) = removeWs l := by
  unfold trim
  rw [removeWs_reverse, removeWs_dropWhile, removeWs_reverse,
    List.reverse_reverse, removeWs_dropWhile]

lemma rawSentences_ne_nil (c : Char) (rest : List Char) :
    rawSentences (c :: rest) ≠ [] := by
  unfold rawSentences
  by_cases h : isSentEnd c = true
  · simp [h]
  · simp only [h]
    cases rawSentences rest <;> simp

lemma flatten_rawSentences (l : List Char) : (rawSentences l).flatten = l := by
  induction l with
  | nil => rfl
  | cons c rest ih =>
    unfold rawSentences
    by_cases h : isSentEnd c = true
    · simp [h, ih]
    · simp only [h, Bool.false_eq_true, if_false]
      cases hr : rawSentences rest with
      | nil =>
        have : rest = [] := by rw [← ih, hr]; rfl
        simp [this]
      | cons s ss =>
        rw [← ih, hr]
        simp

lemma removeWs_flatten (L : List (List Char)) :
    removeWs L.flatten = (L.map removeWs).flatten := by
  induction L with
  | nil => rfl
  | cons a L ih => simp [removeWs_append, ih]

lemma flatten_filter_ne_nil (L : List (List Char)) :
    (L.filter fun s => decide (s ≠ [])).flatten = L.flatten := by
  induction L with
  | nil => rfl
  | cons a L ih =>
    rw [List.filter_cons]
    by_cases h : a = []
    · have hd : decide (a ≠ []) = false := by simp [h]
      rw [hd]
      simp only [Bool.false_eq_true, if_false]
      rw [ih]
      simp [h]
    · have hd : decide (a ≠ []) = true := by simp [h]
      rw [hd]
      simp only [if_true, List.flatten_cons]
      rw [ih]

lemma removeWs_flatten_splitSpans (t : List Char) :
    removeWs (splitSpans t).flatten = removeWs t := by
  unfold splitSpans
  rw [flatten_filter_ne_nil, removeWs_flatten, List.map_map]
  have hmap : (rawSentences t).map (removeWs ∘ trim) = (rawSentences t).map removeWs :=
    List.map_congr_left fun s _ => removeWs_trim s
  rw [hmap, ← removeWs_flatten, flatten_rawSentences]

lemma splitSpans_ne_nil (t : List Char) : ∀ s ∈ splitSpans t, s ≠ [] := by
  intro s hs
  unfold splitSpans at hs
  have := (List.mem_filter.mp hs).2
  exact of_decide_eq_true this

/-! ## Lemmas about merging spans into chunks -/

lemma flatten_mergeAux (b : Nat → Bool) :
    ∀ (rest : List (List Char)) (i : Nat) (acc : List Char),
      (mergeAux b i acc rest).flatten = acc ++ rest.flatten := by
  intro rest
  induction rest with
  | nil => intro i acc; simp [mergeAux]
  | cons s rest ih =>
    intro i acc
    unfold mergeAux
    by_cases h : b i = true
    · simp [h, ih]
    · simp [h, ih]

lemma flatten_mergeSpans (b : Nat → Bool) (l : List (List Char)) :
    (mergeSpans b l).flatten = l.flatten := by
  cases l with
  | nil => rfl
  | cons s rest => simp [mergeSpans, flatten_mergeAux]

lemma mergeAux_ne_nil (b : Nat → Bool) :
    ∀ (rest : List (List Char)) (i : Nat) (acc : List Char),
      acc ≠ [] → (∀ s ∈ rest, s ≠ []) →
      ∀ c ∈ mergeAux b i acc rest, c ≠ [] := by
  intro rest
  induction rest with
  | nil =>
    intro i acc hacc _ c hc
    simp [mergeAux] at hc
    simpa [hc] using hacc
  | cons s rest ih =>
    intro i acc hacc hrest c hc
    have hs : s ≠ [] := hrest s (by simp)
    have hrest' : ∀ x ∈ rest, x ≠ [] := fun x hx => hrest x (by simp [hx])
    unfold mergeAux at hc
    by_cases h : b i = true
    · simp only [h, if_true, List.mem_cons] at hc
      rcases hc with hc | hc
      · simpa [hc] using hacc
      · exact ih (i + 1) s hs hrest' c hc
    · simp only [h, Bool.false_eq_true, if_false] at hc
      have haccs : acc ++ s ≠ [] := by simp [hacc]
      exact ih (i + 1) (acc ++ s) haccs hrest' c hc

lemma mergeSpans_ne_nil (b : Nat → Bool) (l : List (List Char))
    (h : ∀ s ∈ l, s ≠ []) : ∀ c ∈ mergeSpans b l, c ≠ [] := by
  cases l with
  | nil => intro c hc; simp [mergeSpans] at hc
  | cons s rest =>
    exact mergeAux_ne_nil b rest 0 s (h s (by simp))
      (fun x hx => h x (by simp [hx]))

/-- C1: for every transcript, whenever the Semantic Segmenter succeeds its
chunks are each non-empty and their in-order concatenation, ignoring
whitespace normalization, reproduces the original transcript — every
character is covered exactly once, with no gaps or overlaps. -/
theorem split_text_covers {εe : Type}
    (emb : List (List Char) → Except εe (List (List ℤ))) (p : ℚ) (t : List Char)
    (chunks : List (List Char)) (h : split_text emb p t = some chunks) :
    removeWs chunks.flatten = removeWs t ∧ ∀ c ∈ chunks, c ≠ [] := by
  cases hemb : emb (splitSpans t) with
  | error e => simp [split_text, hemb] at h
  | ok vecs =>
    simp only [split_text, hemb] at h
    by_cases hlen : vecs.length = (splitSpans t).length
    · rw [if_pos hlen] at h
      have hchunks : chunks = mergeSpans (boundaryOf vecs p) (splitSpans t) :=
        (Option.some_injective _ h).symm
      subst hchunks
      constructor
      · rw [flatten_mergeSpans, removeWs_flatten_splitSpans]
      · exact mergeSpans_ne_nil _ _ (splitSpans_ne_nil t)
    · rw [if_neg hlen] at h
      exact absurd h (by simp)

/-- Witness for C1 at a concrete transcript and embedding provider. -/
theorem split_text_covers_witness :
    removeWs (List.flatten [("A b.C d.E f.".data : List Char)]) =
        removeWs ("A b. C d. E f.".data : List Char) ∧
      ∀ c ∈ [("A b.C d.E f.".data : List Char)], c ≠ [] := by
  have h := split_text_covers
    (fun s => (Except.ok (s.map fun _ => ([0] : List ℤ)) : Except Unit (List (List ℤ))))
    0 "A b. C d. E f.".data ["A b.C d.E f.".data]
  exact h (by decide)

/-- C8: segmentation is deterministic in the chunk-boundary decision — two
runs of the Semantic Segmenter given identical embedding vectors for the
spans and the same threshold percentile produce exactly the same chunk
sequence. -/
theorem split_text_deterministic {εe : Type}
    (emb1 emb2 : List (List Char) → Except εe (List (List ℤ))) (p : ℚ)
    (t : List Char) (h : emb1 (splitSpans t) = emb2 (splitSpans t)) :
    split_text emb1 p t = split_text emb2 p t := by
  unfold split_text
  rw [h]

/-- Witness for C8 at a concrete transcript and two embedding providers that
agree on the spans of the transcript. -/
theorem split_text_deterministic_witness :
    split_text
        (fun s => (Except.ok (s.map fun _ => ([0] : List ℤ)) : Except Unit (List (List ℤ))))
        0 "A b. C d.".data =
      split_text
        (fun s => (Except.ok (List.replicate s.length ([0] : List ℤ)) :
          Except Unit (List (List ℤ))))
        0 "A b. C d.".data := by
  have h := split_text_deterministic
    (fun s => (Except.ok (s.map fun _ => ([0] : List ℤ)) : Except Unit (List (List ℤ))))
    (fun s => (Except.ok (List.replicate s.length ([0] : List ℤ)) :
      Except Unit (List (List ℤ))))
    0 "A b. C d.".data
  exact h (by rfl)

/-! ## Lemmas about the refine loop -/

/-- The running summary after folding `rest` into `acc` with responses `g`,
starting at call index `i` (recursive form of the left fold). -/
def specFoldAux (g : Nat → Prompt → List Char) :
    List Char → Nat → List (List Char) → List Char
  | acc, _, [] => acc
  | acc, i, c :: rest => specFoldAux g (g i (.refine acc c)) (i + 1) rest

/-- The refine-template prompts rendered while folding `rest` into `acc` with
responses `g`, starting at call index `i`. -/
def specTraceAux (g : Nat → Prompt → List Char) :
    List Char → Nat → List (List Char) → List Prompt
  | _, _, [] => []
  | acc, i, c :: rest =>
    .refine acc c :: specTraceAux g (g i (.refine acc c)) (i + 1) rest

lemma refineLoop_ok {ε : Type} (llm : Nat → Prompt → Except ε (List Char))
    (g : Nat → Prompt → List Char) (h : ∀ i p, llm i p = Except.ok (g i p)) :
    ∀ (rest : List (List Char)) (i : Nat) (acc : List Char),
      refineLoop llm acc i rest =
        (Except.ok (specFoldAux g acc i rest), specTraceAux g acc i rest) := by
  intro rest
  induction rest with
  | nil => intro i acc; rfl
  | cons c rest ih =>
    intro i acc
    simp only [refineLoop, h i (.refine acc c), specFoldAux, specTraceAux, ih]

lemma runRefine_ok {ε : Type} (llm : Nat → Prompt → Except ε (List Char))
    (g : Nat → Prompt → List Char) (h : ∀ i p, llm i p = Except.ok (g i p))
    (c0 : List Char) (rest : List (List Char)) :
    runRefine llm (c0 :: rest) =
      (Except.ok (specFoldAux g (g 0 (.initial c0)) 1 rest),
        .initial c0 :: specTraceAux g (g 0 (.initial c0)) 1 rest) := by
  simp only [runRefine, h 0 (.initial c0), refineLoop_ok llm g h]

lemma foldl_enumFrom_eq_specFoldAux (g : Nat → Prompt → List Char) :
    ∀ (rest : List (List Char)) (i : Nat) (acc : List Char),
      (List.enumFrom i rest).foldl (fun acc ic => g ic.1 (.refine acc ic.2)) acc =
        specFoldAux g acc i rest := by
  intro rest
  induction rest with
  | nil => intro i acc; rfl
  | cons c rest ih =>
    intro i acc
    simp only [List.enumFrom, List.foldl_cons, specFoldAux]
    exact ih (i + 1) (g i (.refine acc c))

lemma specFold_eq_specFoldAux (g : Nat → Prompt → List Char) (c0 : List Char)
    (rest : List (List Char)) :
    specFold g c0 rest = specFoldAux g (g 0 (.initial c0)) 1 rest :=
  foldl_enumFrom_eq_specFoldAux g rest 1 (g 0 (.initial c0))

lemma specTraceAux_length (g : Nat → Prompt → List Char) :
    ∀ (rest : List (List Char)) (i : Nat) (acc : List Char),
      (specTraceAux g acc i rest).length = rest.length := by
  intro rest
  induction rest with
  | nil => intro i acc; rfl
  | cons c rest ih =>
    intro i acc
    simp only [specTraceAux, List.length_cons, ih]

lemma specTraceAux_map_chunkOf (g : Nat → Prompt → List Char) :
    ∀ (rest : List (List Char)) (i : Nat) (acc : List Char),
      (specTraceAux g acc i rest).map chunkOf = rest := by
  intro rest
  induction rest with
  | nil => intro i acc; rfl
  | cons c rest ih =>
    intro i acc
    simp only [specTraceAux, List.map_cons, chunkOf, ih]

lemma specTraceAux_countP_initial (g : Nat → Prompt → List Char) :
    ∀ (rest : List (List Char)) (i : Nat) (acc : List Char),
      (specTraceAux g acc i rest).countP isInitialP = 0 := by
  intro rest
  induction rest with
  | nil => intro i acc; rfl
  | cons c rest ih =>
    intro i acc
    simp only [specTraceAux, List.countP_cons, ih, isInitialP]
    rfl

lemma specTraceAux_countP_refine (g : Nat → Prompt → List Char) :
    ∀ (rest : List (List Char)) (i : Nat) (acc : List Char),
      (specTraceAux g acc i rest).countP isRefineP = rest.length := by
  intro rest
  induction rest with
  | nil => intro i acc; rfl
  | cons c rest ih =>
    intro i acc
    simp only [specTraceAux, List.countP_cons, ih, isRefineP, List.length_cons]
    rfl

/-- C2: when every Language Model Provider call succeeds, one run of the
refine chain on N ≥ 1 chunks makes exactly N provider calls — the first with
the initial (question) template on the first chunk, the remaining N − 1 with
the refine template — and folds each chunk in exactly once, in transcript
order. -/
theorem refine_invokes_once_per_chunk {ε : Type}
    (llm : Nat → Prompt → Except ε (List Char)) (g : Nat → Prompt → List Char)
    (c0 : List Char) (rest : List (List Char))
    (h : ∀ i p, llm i p = Except.ok (g i p)) :
    (runRefine llm (c0 :: rest)).2.length = (c0 :: rest).length ∧
      (runRefine llm (c0 :: rest)).2.map chunkOf = c0 :: rest ∧
      (runRefine llm (c0 :: rest)).2.head? = some (Prompt.initial c0) ∧
      (runRefine llm (c0 :: rest)).2.countP isInitialP = 1 ∧
      (runRefine llm (c0 :: rest)).2.countP isRefineP = rest.length := by
  rw [runRefine_ok llm g h]
  refine ⟨?_, ?_, rfl, ?_, ?_⟩
  · simp [specTraceAux_length]
  · simp [chunkOf, specTraceAux_map_chunkOf]
  · simp only [List.countP_cons, specTraceAux_countP_initial, isInitialP]
    rfl
  · simp only [List.countP_cons, specTraceAux_countP_refine, isRefineP]
    rfl

/-- Witness for C2 at a concrete provider and chunk sequence. -/
theorem refine_invokes_once_per_chunk_witness :
    (runRefine (fun _ _ => (Except.ok "S".data : Except Unit (List Char)))
        ["a".data, "b".data]).2.length = 2 ∧
      (runRefine (fun _ _ => (Except.ok "S".data : Except Unit (List Char)))
          ["a".data, "b".data]).2.map chunkOf = ["a".data, "b".data] ∧
      (runRefine (fun _ _ => (Except.ok "S".data : Except Unit (List Char)))
          ["a".data, "b".data]).2.head? = some (Prompt.initial "a".data) ∧
      (runRefine (fun _ _ => (Except.ok "S".data : Except Unit (List Char)))
          ["a".data, "b".data]).2.countP isInitialP = 1 ∧
      (runRefine (fun _ _ => (Except.ok "S".data : Except Unit (List Char)))
          ["a".data, "b".data]).2.countP isRefineP = 1 := by
  have h := refine_invokes_once_per_chunk
    (fun _ _ => (Except.ok "S".data : Except Unit (List Char)))
    (fun _ _ => "S".data) "a".data ["b".data] (fun _ _ => rfl)
  simpa using h

/-- C5: when every Language Model Provider call succeeds, the final summary
returned by the refine chain equals the explicit left fold over the chunks —
the accumulator starts as the response for the initial template on chunk 1
and is wholly replaced at each step by the response for the refine template
on (prior accumulator, next chunk). -/
theorem refine_final_summary_eq_left_fold {ε : Type}
    (llm : Nat → Prompt → Except ε (List Char)) (g : Nat → Prompt → List Char)
    (c0 : List Char) (rest : List (List Char))
    (h : ∀ i p, llm i p = Except.ok (g i p)) :
    (runRefine llm (c0 :: rest)).1 = Except.ok (specFold g c0 rest) := by
  rw [runRefine_ok llm g h, specFold_eq_specFoldAux]

/-- Witness for C5 at a concrete provider and chunk sequence. -/
theorem refine_final_summary_eq_left_fold_witness :
    (runRefine (fun i _ => (Except.ok (toString i).data : Except Unit (List Char)))
        ["a".data, "b".data, "c".data]).1 =
      Except.ok (specFold (fun i _ => (toString i).data) "a".data
        ["b".data, "c".data]) := by
  exact refine_final_summary_eq_left_fold
    (fun i _ => (Except.ok (toString i).data : Except Unit (List Char)))
    (fun i _ => (toString i).data) "a".data ["b".data, "c".data] (fun _ _ => rfl)

/-- C6: on a chunk sequence of length exactly 1, the refine template is never
rendered and no refine-template call occurs — the prompt trace is exactly one
initial-template prompt on that single chunk, whatever the provider does. -/
theorem refine_single_chunk {ε : Type}
    (llm : Nat → Prompt → Except ε (List Char)) (c : List Char) :
    (runRefine llm [c]).2 = [Prompt.initial c] ∧
      (runRefine llm [c]).2.countP isRefineP = 0 := by
  cases hc : llm 0 (.initial c) with
  | error e =>
    constructor
    · simp [runRefine, hc]
    · simp [runRefine, hc, List.countP_cons, isRefineP]
  | ok s =>
    constructor
    · simp [runRefine, hc, refineLoop]
    · simp [runRefine, hc, refineLoop, List.countP_cons, isRefineP]

lemma refineLoop_fail {ε : Type} (llm : Nat → Prompt → Except ε (List Char))
    (g : Nat → Prompt → List Char) (F : Nat) (e : ε)
    (h1 : ∀ j p, j < F → llm j p = Except.ok (g j p))
    (h2 : ∀ p, llm F p = Except.error e) :
    ∀ (rest : List (List Char)) (i : Nat) (acc : List Char),
      i ≤ F → F < i + rest.length →
      (refineLoop llm acc i rest).1 =
        Except.error
          (.summarizationFailure (F + 1) (specFoldAux g acc i (rest.take (F - i))) e) := by
  intro rest
  induction rest with
  | nil =>
    intro i acc hle hlt
    simp at hlt
    omega
  | cons c rest ih =>
    intro i acc hle hlt
    by_cases hiF : i = F
    · subst hiF
      have htake : i - i = 0 := by omega
      simp [refineLoop, h2 (Prompt.refine acc c), htake, specFoldAux]
    · have hlt' : i < F := by omega
      have hstep : F - i = (F - (i + 1)) + 1 := by omega
      rw [hstep, List.take_succ_cons]
      simp only [refineLoop, h1 i (.refine acc c) hlt', specFoldAux]
      exact ih (i + 1) (g i (.refine acc c)) (by omega) (by simp at hlt ⊢; omega)

/-- C3: if the Language Model Provider fails on chunk k (calls before it
succeeding), the orchestrator returns a SummarizationFailure carrying the
index k of the failing chunk and the Running Summary accumulated after chunk
k − 1 (the empty string if k = 1); it does not return a truncated summary as
success. -/
theorem refine_failure_semantics {ε : Type}
    (llm : Nat → Prompt → Except ε (List Char)) (g : Nat → Prompt → List Char)
    (c0 : List Char) (rest : List (List Char)) (k : Nat) (e : ε)
    (hk1 : 1 ≤ k) (hk2 : k ≤ (c0 :: rest).length)
    (h1 : ∀ j p, j < k - 1 → llm j p = Except.ok (g j p))
    (h2 : ∀ p, llm (k - 1) p = Except.error e) :
    (runRefine llm (c0 :: rest)).1 =
      Except.error
        (.summarizationFailure k (runningSummaryAfter g c0 rest (k - 1)) e) := by
  cases k with
  | zero => omega
  | succ m =>
    have hm : m + 1 - 1 = m := by omega
    rw [hm] at h1 h2 ⊢
    cases m with
    | zero =>
      simp [runRefine, h2 (Prompt.initial c0), runningSummaryAfter]
    | succ m' =>
      have h0 : llm 0 (Prompt.initial c0) = Except.ok (g 0 (Prompt.initial c0)) :=
        h1 0 (Prompt.initial c0) (by omega)
      simp only [runRefine, h0]
      have hfail := refineLoop_fail llm g (m' + 1) e h1 h2 rest 1
        (g 0 (Prompt.initial c0)) (by omega)
        (by simp at hk2 ⊢; omega)
      simp only [hfail, runningSummaryAfter, specFold_eq_specFoldAux]
      have : m' + 1 - 1 = m' := by omega
      rw [this]

/-- Witness for C3: the provider succeeds on the first call and fails on the
second, so a two-chunk run fails on chunk 2 carrying the summary after
chunk 1. -/
theorem refine_failure_semantics_witness :
    (runRefine
        (fun j _ => if j = 0 then (Except.ok "S0".data : Except Unit (List Char))
          else Except.error ())
        ["a".data, "b".data]).1 =
      Except.error
        (.summarizationFailure 2
          (runningSummaryAfter (fun _ _ => "S0".data) "a".data ["b".data] (2 - 1)) ()) := by
  exact refine_failure_semantics
    (fun j _ => if j = 0 then (Except.ok "S0".data : Except Unit (List Char))
      else Except.error ())
    (fun _ _ => "S0".data) "a".data ["b".data] 2 () (by omega) (by simp)
    (by
      intro j p hj
      have hj0 : j = 0 := by omega
      subst hj0
      rfl)
    (fun p => rfl)

/-! ## Pipeline-level claims -/

/-- C4: for the empty transcript and any whitespace-only transcript, the
pipeline returns InvalidInput having made no Embedding Provider call and no
Language Model Provider call. -/
theorem summarize_invalid_input {εe ε : Type}
    (emb : List (List Char) → Except εe (List (List ℤ)))
    (llm : Nat → Prompt → Except ε (List Char)) (p : ℚ) (t : List Char)
    (h : t.all isWsChar = true) :
    summarize emb llm p t =
      ⟨Except.error PipeErr.invalidInput, [], []⟩ := by
  unfold summarize
  rw [if_pos h]

/-- Witness for C4 at the empty transcript and at a whitespace-only one. -/
theorem summarize_invalid_input_witness :
    summarize (fun _ => (Except.ok [] : Except Unit (List (List ℤ))))
        (fun _ _ => (Except.ok "S".data : Except Unit (List Char))) 0 [] =
      ⟨Except.error PipeErr.invalidInput, [], []⟩ ∧
    summarize (fun _ => (Except.ok [] : Except Unit (List (List ℤ))))
        (fun _ _ => (Except.ok "S".data : Except Unit (List Char))) 0 "  ".data =
      ⟨Except.error PipeErr.invalidInput, [], []⟩ :=
  ⟨summarize_invalid_input _ _ 0 [] (by decide),
    summarize_invalid_input _ _ 0 "  ".data (by decide)⟩

/-- C7: when the Embedding Provider fails during segmentation — it raises an
error, or returns a malformed response whose length does not match the spans —
the pipeline returns EmbeddingFailure, no chunks are produced (the refine
stage is never entered), and zero Language Model Provider calls are made. -/
theorem summarize_embedding_failure {εe ε : Type}
    (emb : List (List Char) → Except εe (List (List ℤ)))
    (llm : Nat → Prompt → Except ε (List Char)) (p : ℚ) (t : List Char)
    (hw : t.all isWsChar = false)
    (hemb : (∃ e, emb (splitSpans t) = Except.error e) ∨
      ∃ vs, emb (splitSpans t) = Except.ok vs ∧ vs.length ≠ (splitSpans t).length) :
    summarize emb llm p t =
      ⟨Except.error PipeErr.embeddingFailure, [splitSpans t], []⟩ := by
  have hsplit : split_text emb p t = none := by
    rcases hemb with ⟨e, he⟩ | ⟨vs, hvs, hlen⟩
    · simp [split_text, he]
    · simp [split_text, hvs, hlen]
  unfold summarize
  rw [hw]
  simp only [Bool.false_eq_true, if_false, hsplit]

/-- Witness for C7 at a concrete transcript and a failing embedding
provider. -/
theorem summarize_embedding_failure_witness :
    summarize (fun _ => (Except.error () : Except Unit (List (List ℤ))))
        (fun _ _ => (Except.ok "S".data : Except Unit (List Char))) 0 "a".data =
      ⟨Except.error PipeErr.embeddingFailure, [splitSpans "a".data], []⟩ := by
  exact summarize_embedding_failure _ _ 0 "a".data (by decide) (Or.inl ⟨(), rfl⟩)

/-! ## Claims about `extract_video_id` and `get_youtube_transcript` -/

/-- C9: `get_youtube_transcript` never raises — it is a total function into
strings — and every failure path (invalid URL, or the transcript API raising)
returns a string beginning with `"Error: "`, so an error result has the same
type as a successful transcript. -/
theorem get_youtube_transcript_error_prefixed
    (api : List Char → Except (List Char) (List (List Char))) (url : List Char)
    (h : extract_video_id url = none ∨
      ∃ v e, extract_video_id url = some v ∧ api v = Except.error e) :
    ("Error: ".data).isPrefixOf (get_youtube_transcript api url) = true := by
  rcases h with h | ⟨v, e, hv, he⟩
  · simp only [get_youtube_transcript, h]
    decide
  · simp only [get_youtube_transcript, hv, he]
    simp [List.isPrefixOf_iff_prefix]

/-- Witness for C9: both failure paths at concrete inputs. -/
theorem get_youtube_transcript_error_prefixed_witness :
    ("Error: ".data).isPrefixOf
        (get_youtube_transcript (fun _ => Except.ok [])
          "https://example.com".data) = true ∧
      ("Error: ".data).isPrefixOf
        (get_youtube_transcript (fun _ => Except.error "boom".data)
          "v=abcdefghijk".data) = true :=
  ⟨get_youtube_transcript_error_prefixed _ _ (Or.inl (by decide)),
    get_youtube_transcript_error_prefixed _ _
      (Or.inr ⟨"abcdefghijk".data, "boom".data, by decide, rfl⟩)⟩

/-! ## Lemmas about the regex search -/

/-- The first pattern can fire at position `i` of the URL: an 11-character
id run immediately preceded by `v=` or by `/`. -/
def p1TriggerAt (url : List Char) (i : Nat) : Bool :=
  (decide ((url.drop i).take 2 = ['v', '=']) && elevenIdAt ((url.drop i).drop 2)) ||
    (decide ((url.drop i).take 1 = ['/']) && elevenIdAt ((url.drop i).drop 1))

lemma idCapture_isSome (x : List Char) : (idCapture x).isSome = elevenIdAt x := by
  by_cases h : elevenIdAt x = true
  · simp [idCapture, h]
  · simp only [Bool.not_eq_true] at h
    simp [idCapture, h]

lemma take_one_of_take_two (s : List Char) (a b : Char) (h : s.take 2 = [a, b]) :
    s.take 1 = [a] := by
  have h1 : (s.take 2).take 1 = s.take 1 := by
    rw [List.take_take]
    norm_num
  rw [← h1, h]
  rfl

lemma matchP1At_isSome (s : List Char) :
    (matchP1At s).isSome =
      ((decide (s.take 2 = ['v', '=']) && elevenIdAt (s.drop 2)) ||
        (decide (s.take 1 = ['/']) && elevenIdAt (s.drop 1))) := by
  by_cases h2 : s.take 2 = ['v', '=']
  · have h1 : s.take 1 = ['v'] := take_one_of_take_two s 'v' '=' h2
    have hne : ¬s.take 1 = ['/'] := by rw [h1]; decide
    simp [matchP1At, h2, hne, idCapture_isSome]
  · by_cases h1 : s.take 1 = ['/']
    · simp [matchP1At, h2, h1, idCapture_isSome]
    · simp [matchP1At, h2, h1]

lemma p1TriggerAt_eq (url : List Char) (i : Nat) :
    p1TriggerAt url i = (matchP1At (url.drop i)).isSome := by
  rw [matchP1At_isSome]
  rfl

lemma searchCapture_eq_none_iff (m : List Char → Option (List Char))
    (hm : m [] = none) :
    ∀ s : List Char, searchCapture m s = none ↔ ∀ i, m (s.drop i) = none := by
  intro s
  induction s with
  | nil =>
    constructor
    · intro _ i
      simpa using hm
    · intro _
      rfl
  | cons c rest ih =>
    constructor
    · intro h i
      cases hm0 : m (c :: rest) with
      | some g => simp [searchCapture, hm0] at h
      | none =>
        cases i with
        | zero => simpa using hm0
        | succ j =>
          have hrest : searchCapture m rest = none := by
            simpa [searchCapture, hm0] using h
          simpa using (ih.mp hrest) j
    · intro h
      have h0 : m (c :: rest) = none := by simpa using h 0
      have hrest : ∀ i, m (rest.drop i) = none := fun i => by simpa using h (i + 1)
      simp [searchCapture, h0, ih.mpr hrest]

lemma searchCapture_eq_some_exists (m : List Char → Option (List Char)) :
    ∀ (s : List Char) (g : List Char), searchCapture m s = some g →
      ∃ i, m (s.drop i) = some g := by
  intro s
  induction s with
  | nil =>
    intro g h
    simp [searchCapture] at h
  | cons c rest ih =>
    intro g h
    cases hm0 : m (c :: rest) with
    | some g' =>
      have hgg : g' = g := by simpa [searchCapture, hm0] using h
      exact ⟨0, by simpa [hgg] using hm0⟩
    | none =>
      have hrest : searchCapture m rest = some g := by
        simpa [searchCapture, hm0] using h
      obtain ⟨i, hi⟩ := ih g hrest
      exact ⟨i + 1, by simpa using hi⟩

lemma searchCapture_isSome_of_matchAt (m : List Char → Option (List Char))
    (hm : m [] = none) :
    ∀ (s : List Char) (i : Nat) (g : List Char), m (s.drop i) = some g →
      ∃ g', searchCapture m s = some g' := by
  intro s
  induction s with
  | nil =>
    intro i g h
    simp at h
    rw [h] at hm
    exact Option.noConfusion hm
  | cons c rest ih =>
    intro i g h
    cases hm0 : m (c :: rest) with
    | some g' => exact ⟨g', by simp [searchCapture, hm0]⟩
    | none =>
      cases i with
      | zero =>
        simp at h
        rw [h] at hm0
        exact Option.noConfusion hm0
      | succ j =>
        obtain ⟨g', hg'⟩ := ih j g (by simpa using h)
        exact ⟨g', by simp [searchCapture, hm0, hg']⟩

lemma matchP2At_drop8 (s g : List Char) (h : matchP2At s = some g) :
    matchP1At (s.drop 8) = some g := by
  by_cases h9 : s.take 9 = ['y', 'o', 'u', 't', 'u', '.', 'b', 'e', '/']
  · have hcap : idCapture (s.drop 9) = some g := by
      simpa [matchP2At, h9] using h
    have hs : s.take 9 ++ s.drop 9 = s := List.take_append_drop 9 s
    have hdrop : s.drop 8 = '/' :: s.drop 9 := by
      conv_lhs => rw [← hs, h9]
      rfl
    rw [hdrop]
    have hcond : ¬('/' :: s.drop 9).take 2 = ['v', '='] := by
      simp
    have hcond1 : ('/' :: s.drop 9).take 1 = ['/'] := rfl
    simp [matchP1At, hcond, hcond1, hcap]
  · simp [matchP2At, h9] at h

/-- C10 counterexample: on
`"v=00000000000youtu.be/11111111111"` the second pattern matches and captures
`"11111111111"`, yet the first pattern's (leftmost) capture — which is what
`extract_video_id` returns — is the different id `"00000000000"`; so the
second pattern's capture is not always equal to the first's. -/
theorem extract_video_id_counterexample :
    searchCapture matchP2At "v=00000000000youtu.be/11111111111".data =
        some "11111111111".data ∧
      extract_video_id "v=00000000000youtu.be/11111111111".data =
        some "00000000000".data ∧
      ("11111111111".data : List Char) ≠ "00000000000".data :=
  ⟨by decide, by decide, by decide⟩

/-- C10 (amended): the second, youtu.be-specific pattern is unreachable —
whenever it matches, the first pattern also matches (with a capture that may
differ when an earlier `v=`- or `/`-preceded run exists), so
`extract_video_id` returns the first pattern's capture; and the result is
`none` exactly when the URL contains no 11-character `[0-9A-Za-z_-]` run
immediately preceded by `v=` or `/`. -/
theorem extract_video_id_characterization (url : List Char) :
    (∀ g, searchCapture matchP2At url = some g →
        ∃ g1, searchCapture matchP1At url = some g1 ∧
          extract_video_id url = some g1) ∧
      (extract_video_id url = none ↔ ∀ i, p1TriggerAt url i = false) := by
  constructor
  · intro g hg
    obtain ⟨i, hi⟩ := searchCapture_eq_some_exists matchP2At url g hg
    have hp1 : matchP1At ((url.drop i).drop 8) = some g := matchP2At_drop8 _ _ hi
    rw [List.drop_drop] at hp1
    obtain ⟨g1, hg1⟩ :=
      searchCapture_isSome_of_matchAt matchP1At rfl url (i + 8) g hp1
    exact ⟨g1, hg1, by simp [extract_video_id, hg1]⟩
  · constructor
    · intro h i
      have h1 : searchCapture matchP1At url = none := by
        cases hs : searchCapture matchP1At url with
        | none => rfl
        | some g =>
          rw [extract_video_id, hs] at h
          exact Option.noConfusion h
      have hnone := (searchCapture_eq_none_iff matchP1At rfl url).mp h1 i
      rw [p1TriggerAt_eq, hnone]
      rfl
    · intro h
      have h1 : searchCapture matchP1At url = none := by
        rw [searchCapture_eq_none_iff matchP1At rfl url]
        intro i
        have hti := h i
        rw [p1TriggerAt_eq] at hti
        cases hmm : matchP1At (url.drop i) with
        | none => rfl
        | some g => rw [hmm] at hti; exact Bool.noConfusion hti
      have h2 : searchCapture matchP2At url = none := by
        cases hs : searchCapture matchP2At url with
        | none => rfl
        | some g =>
          obtain ⟨i, hi⟩ := searchCapture_eq_some_exists matchP2At url g hs
          have hp1 : matchP1At ((url.drop i).drop 8) = some g := matchP2At_drop8 _ _ hi
          rw [List.drop_drop] at hp1
          obtain ⟨g1, hg1⟩ :=
            searchCapture_isSome_of_matchAt matchP1At rfl url (i + 8) g hp1
          rw [hg1] at h1
          exact Option.noConfusion h1
      rw [extract_video_id, h1, h2]

/-- Witness for C10's amended theorem: on a plain youtu.be URL the second
pattern matches, and the first pattern indeed also matches and decides the
result. -/
theorem extract_video_id_characterization_witness :
    ∃ g1, searchCapture matchP1At "https://youtu.be/abcdefghijk".data = some g1 ∧
      extract_video_id "https://youtu.be/abcdefghijk".data = some g1 :=
  (extract_video_id_characterization "https://youtu.be/abcdefghijk".data).1
    "abcdefghijk".data (by decide)
